import Mathlib

/-!
Verification development for feediverse.py, the incremental feed-to-post
pipeline.  Python strings are modelled as lists of unicode code points,
feed entries as fixed-shape records, the network as an explicit fetch
oracle, and Python exceptions as Except values.
-/

namespace Feediverse

/-- Model of a Python str: a list of unicode code points. -/
abbrev Str := List Char

/-- Python exceptions that the modelled code can raise. -/
inductive PyErr where
  | valueError
  | nameError
deriving DecidableEq, Repr

/-- Unicode whitespace as recognised by Python str.split and str.strip. -/
def pyWs (c : Char) : Bool :=
  c == ' ' || c == '\t' || c == '\n' || c == '\r' ||
  c.toNat == 0x0B || c.toNat == 0x0C ||
  c.toNat == 0x1C || c.toNat == 0x1D || c.toNat == 0x1E || c.toNat == 0x1F ||
  c.toNat == 0x85 || c.toNat == 0xA0 || c.toNat == 0x1680 ||
  (decide (0x2000 ≤ c.toNat) && decide (c.toNat ≤ 0x200A)) ||
  c.toNat == 0x2028 || c.toNat == 0x2029 || c.toNat == 0x202F ||
  c.toNat == 0x205F || c.toNat == 0x3000

/-- Python substring test: pat in s. -/
def containsSub (pat s : Str) : Bool := s.tails.any (fun t => pat.isPrefixOf t)

/-- Python str.strip(): drop unicode whitespace from both ends. -/
def pyStrip (l : Str) : Str := (l.dropWhile pyWs).rdropWhile pyWs

mutual

/-- Python str.split() with no argument: split on whitespace runs, dropping empties. -/
def pySplit : Str → List Str
  | [] => []
  | c :: cs => if pyWs c then pySplit cs else pyWord cs [c]

/-- Scanning one word of str.split(); acc holds its characters reversed. -/
def pyWord : Str → Str → List Str
  | [], acc => [acc.reverse]
  | c :: cs, acc => if pyWs c then acc.reverse :: pySplit cs else pyWord cs (c :: acc)

end

/-- Decimal digits of a natural number, most significant first (empty for 0). -/
def natDigits : Nat → Str
  | 0 => []
  | n + 1 => natDigits ((n + 1) / 10) ++ [Char.ofNat (48 + (n + 1) % 10)]
decreasing_by exact Nat.div_lt_self (Nat.succ_pos _) (by omega)

/-- Decimal rendering of an integer; stands in for the external str() rendering
of the parsed timestamp when a template interpolates it. -/
def intStr (i : Int) : Str :=
  match i with
  | .ofNat 0 => ['0']
  | .ofNat n => natDigits n
  | .negSucc n => '-' :: natDigits (n + 1)

/-! ## HTML fragment model (BeautifulSoup with the html.parser builder) -/

/-- Lexer tokens of the HTML fragment parser. -/
inductive Tok where
  | ch (c : Char)
  | openT (name : Str) (attrs : List (Str × Str)) (selfClosing : Bool)
  | closeT (name : Str)
deriving DecidableEq, Repr

/-- Characters allowed in tag and attribute names. -/
def isNameChar (c : Char) : Bool := c.isAlphanum || c == '-' || c == ':' || c == '_'

/-- Characters that may appear in an entity reference body. -/
def entChar (c : Char) : Bool := c.isAlphanum || c == '#'

/-- Decode the character references the parser converts in text data. -/
def entityLookup (name : Str) : Option Char :=
  match name with
  | '#' :: ds =>
    if !ds.isEmpty && ds.all Char.isDigit then
      some (Char.ofNat (ds.foldl (fun a c => a * 10 + (c.toNat - 48)) 0))
    else none
  | _ =>
    if name = "lt".toList then some '<'
    else if name = "gt".toList then some '>'
    else if name = "amp".toList then some '&'
    else if name = "quot".toList then some '"'
    else if name = "apos".toList then some (Char.ofNat 39)
    else if name = "nbsp".toList then some (Char.ofNat 0xA0)
    else none

mutual

/-- Parse the attribute section of a start tag (keys lowercased, quoted or
bare values, valueless attributes mapped to the empty string). -/
def parseAttrs : Str → List (Str × Str)
  | [] => []
  | c :: cs =>
    if pyWs c || c == '/' then parseAttrs cs
    else attrKey cs [c]

/-- Scanning an attribute key; acc holds its characters reversed. -/
def attrKey : Str → Str → List (Str × Str)
  | [], acc => [(acc.reverse.map Char.toLower, [])]
  | c :: cs, acc =>
    if c == '=' then attrVal cs (acc.reverse.map Char.toLower)
    else if pyWs c || c == '/' then (acc.reverse.map Char.toLower, []) :: parseAttrs cs
    else attrKey cs (c :: acc)

/-- Just after the equals sign of an attribute. -/
def attrVal : Str → Str → List (Str × Str)
  | [], key => [(key, [])]
  | c :: cs, key =>
    if c == '"' || c.toNat == 39 then attrQuoted cs c key []
    else attrBare cs key [c]

/-- Scanning a quoted attribute value up to the closing quote. -/
def attrQuoted : Str → Char → Str → Str → List (Str × Str)
  | [], _, key, acc => [(key, acc.reverse)]
  | c :: cs, q, key, acc =>
    if c == q then (key, acc.reverse) :: parseAttrs cs
    else attrQuoted cs q key (c :: acc)

/-- Scanning a bare attribute value up to whitespace. -/
def attrBare : Str → Str → Str → List (Str × Str)
  | [], key, acc => [(key, acc.reverse)]
  | c :: cs, key, acc =>
    if pyWs c then (key, acc.reverse) :: parseAttrs cs
    else attrBare cs key (c :: acc)

end

mutual

/-- Tokenize an HTML fragment: tags, character references (semicolon
terminated), plain characters. -/
def tokenize : Str → List Tok
  | [] => []
  | c :: cs =>
    if c == '<' then tagToks cs
    else if c == '&' then entToks cs []
    else Tok.ch c :: tokenize cs

/-- Just after an opening angle bracket: end tag, start tag, or plain data. -/
def tagToks : Str → List Tok
  | [] => [Tok.ch '<']
  | c :: cs =>
    if c == '/' then closeScan cs []
    else if c.isAlpha then openScan cs [c]
    else if c == '<' then Tok.ch '<' :: tagToks cs
    else if c == '&' then Tok.ch '<' :: entToks cs []
    else Tok.ch '<' :: Tok.ch c :: tokenize cs

/-- Scanning an end tag up to the closing bracket; acc holds the inside
reversed.  An unterminated tag at end of input is dropped. -/
def closeScan : Str → Str → List Tok
  | [], _ => []
  | c :: cs, acc =>
    if c == '>' then
      Tok.closeT ((acc.reverse.takeWhile isNameChar).map Char.toLower) :: tokenize cs
    else closeScan cs (c :: acc)

/-- Scanning a start tag up to the closing bracket; acc holds the inside
reversed.  An unterminated tag at end of input is dropped. -/
def openScan : Str → Str → List Tok
  | [], _ => []
  | c :: cs, acc =>
    if c == '>' then
      Tok.openT ((acc.reverse.takeWhile isNameChar).map Char.toLower)
          (parseAttrs (acc.reverse.dropWhile isNameChar))
          (acc.reverse.getLast? == some '/') ::
        tokenize cs
    else openScan cs (c :: acc)

/-- Scanning a character reference after the ampersand; acc reversed. -/
def entToks : Str → Str → List Tok
  | [], acc => Tok.ch '&' :: acc.reverse.map Tok.ch
  | c :: cs, acc =>
    if c == ';' then
      match entityLookup acc.reverse with
      | some ec => Tok.ch ec :: tokenize cs
      | none => (Tok.ch '&' :: acc.reverse.map Tok.ch) ++ (Tok.ch ';' :: tokenize cs)
    else if entChar c then entToks cs (c :: acc)
    else if c == '<' then (Tok.ch '&' :: acc.reverse.map Tok.ch) ++ tagToks cs
    else if c == '&' then (Tok.ch '&' :: acc.reverse.map Tok.ch) ++ entToks cs []
    else (Tok.ch '&' :: acc.reverse.map Tok.ch) ++ (Tok.ch c :: tokenize cs)

end

/-- Node of the parsed fragment tree. -/
inductive HNode where
  | text (c : Char)
  | elem (name : Str) (attrs : List (Str × Str)) (children : List HNode)

/-- Elements that never take content (void elements). -/
def isVoid (name : Str) : Bool :=
  ["area", "base", "br", "col", "embed", "hr", "img", "input", "link",
   "meta", "param", "source", "track", "wbr"].any (fun v => v.toList = name)

/-- Open element on the tree-builder stack: name, attrs, children so far (reversed). -/
structure Frame where
  name : Str
  attrs : List (Str × Str)
  rev : List HNode

/-- Close a frame into a finished element node. -/
def frameClose (f : Frame) : HNode := .elem f.name f.attrs f.rev.reverse

/-- Attach a finished node to the innermost open element, or to the output. -/
def pushNode (n : HNode) : List Frame → List HNode → List Frame × List HNode
  | [], out => ([], n :: out)
  | f :: fs, out => ({ f with rev := n :: f.rev } :: fs, out)

/-- Implicit closing: fold a finished node into the next frame and keep
closing frames until the named one has been consumed. -/
def closeUpToAux (name : Str) : HNode → List Frame → List HNode → List Frame × List HNode
  | n, [], out => ([], n :: out)
  | n, f :: fs, out =>
    if f.name = name then pushNode (frameClose { f with rev := n :: f.rev }) fs out
    else closeUpToAux name (frameClose { f with rev := n :: f.rev }) fs out

/-- Close open elements up to and including the nearest with the given name. -/
def closeUpTo (name : Str) : List Frame → List HNode → List Frame × List HNode
  | [], out => ([], out)
  | f :: fs, out =>
    if f.name = name then pushNode (frameClose f) fs out
    else closeUpToAux name (frameClose f) fs out

/-- Fold a finished node into the remaining frames and close them all. -/
def closeAllAux : HNode → List Frame → List HNode → List HNode
  | n, [], out => n :: out
  | n, f :: fs, out => closeAllAux (frameClose { f with rev := n :: f.rev }) fs out

/-- Close every remaining open element at end of input. -/
def closeAll : List Frame → List HNode → List HNode
  | [], out => out
  | f :: fs, out => closeAllAux (frameClose f) fs out

/-- Tree construction from the token stream. -/
def buildToks : List Tok → List Frame → List HNode → List HNode
  | [], stack, out => (closeAll stack out).reverse
  | .ch c :: ts, stack, out =>
    let p := pushNode (.text c) stack out
    buildToks ts p.1 p.2
  | .openT name attrs selfC :: ts, stack, out =>
    if selfC || isVoid name then
      let p := pushNode (.elem name attrs []) stack out
      buildToks ts p.1 p.2
    else buildToks ts ({ name := name, attrs := attrs, rev := [] } :: stack) out
  | .closeT name :: ts, stack, out =>
    if stack.any (fun f => f.name = name) then
      let p := closeUpTo name stack out
      buildToks ts p.1 p.2
    else buildToks ts stack out

/-- BeautifulSoup(text, html.parser) as a forest of nodes. -/
def parseHTML (s : Str) : List HNode := buildToks (tokenize s) [] []

/-- Whitespace-separated class list of an element. -/
def classesOf (attrs : List (Str × Str)) : List Str :=
  pySplit (((attrs.find? (fun a => a.1 = "class".toList)).map Prod.snd).getD [])

/-- Matches the pattern read-more or read-more-anything on one class. -/
def readMoreClass (cls : Str) : Bool :=
  cls = "read-more".toList || "read-more-".toList.isPrefixOf cls

mutual

/-- Drop every element (with its subtree) whose class matches read-more(-.*)?,
as the cleanup helper in get_entry does before text extraction. -/
def rmRM : List HNode → List HNode
  | [] => []
  | n :: ns => rmRMN n ++ rmRM ns

/-- The contribution of one node to the read-more removal. -/
def rmRMN : HNode → List HNode
  | .text c => [.text c]
  | .elem nm ats ch =>
    if (classesOf ats).any readMoreClass then []
    else [.elem nm ats (rmRM ch)]

end

mutual

/-- Visible text of a forest (get_text): concatenation of all text nodes. -/
def getTextF : List HNode → Str
  | [] => []
  | n :: ns => getTextN n ++ getTextF ns

/-- Visible text of one node. -/
def getTextN : HNode → Str
  | .text c => [c]
  | .elem _ _ ch => getTextF ch

end

/-! ## The cleanup regex pipeline -/

mutual

/-- re.sub of one-or-more U+00A0 by a single ordinary space: every run of
the character collapses to one space. -/
def subNbsp : Str → Str
  | [] => []
  | c :: cs => if c.toNat == 0xA0 then ' ' :: subNbspSkip cs else c :: subNbsp cs

/-- Inside a U+00A0 run whose replacement space is already emitted. -/
def subNbspSkip : Str → Str
  | [] => []
  | c :: cs => if c.toNat == 0xA0 then subNbspSkip cs else c :: subNbsp cs

end

mutual

/-- re.sub of two-or-more spaces by a single space: every space run
collapses to one space (runs of one are unchanged by the collapse). -/
def subSp2 : Str → Str
  | [] => []
  | c :: cs => if c == ' ' then ' ' :: subSp2Skip cs else c :: subSp2 cs

/-- Inside a space run whose replacement space is already emitted. -/
def subSp2Skip : Str → Str
  | [] => []
  | c :: cs => if c == ' ' then subSp2Skip cs else c :: subSp2 cs

end

mutual

/-- re.sub of one-or-more spaces directly before a newline by that newline:
a space run directly followed by a newline is dropped. -/
def subSpNl : Str → Str
  | [] => []
  | c :: cs => if c == ' ' then spNl cs 1 else c :: subSpNl cs

/-- Inside a space run of k characters so far, not yet emitted. -/
def spNl : Str → Nat → Str
  | [], k => List.replicate k ' '
  | c :: cs, k =>
    if c == ' ' then spNl cs (k + 1)
    else if c == '\n' then '\n' :: subSpNl cs
    else List.replicate k ' ' ++ c :: subSpNl cs

end

mutual

/-- re.sub of three-or-more newlines by exactly two: every newline run
collapses to at most two newlines. -/
def subNl3 : Str → Str
  | [] => []
  | c :: cs => if c == '\n' then '\n' :: nl2 cs else c :: subNl3 cs

/-- One newline of the current run emitted. -/
def nl2 : Str → Str
  | [] => []
  | c :: cs => if c == '\n' then '\n' :: nlSkip cs else c :: subNl3 cs

/-- Two newlines of the current run emitted; further ones are dropped. -/
def nlSkip : Str → Str
  | [] => []
  | c :: cs => if c == '\n' then nlSkip cs else c :: subNl3 cs

end

/-- The cleanup helper of get_entry: parse as HTML, remove read-more blocks,
extract visible text, then the four whitespace substitutions and strip. -/
def cleanup (text : Str) : Str :=
  pyStrip (subNl3 (subSpNl (subSp2 (subNbsp (getTextF (rmRM (parseHTML text)))))))

/-! ## textwrap.shorten (max_lines 1, placeholder " [...]") -/

/-- Placeholder text appended when the wrapper drops words. -/
def placeholderText : Str := " [...]".toList

/-- Translation of ASCII whitespace to plain spaces (_munge_whitespace with
replace_whitespace; no tabs can reach this point from shorten). -/
def munge (l : Str) : Str :=
  l.map fun c =>
    if c == '\t' || c == '\n' || c.toNat == 0x0B || c.toNat == 0x0C || c == '\r' then ' ' else c

mutual

/-- Chunks of the wrapper input: maximal whitespace and non-whitespace runs.
The hyphen-splitting refinements of the word-separation pattern are not
modelled; no input this development passes to the wrapper contains them. -/
def splitChunks : Str → List Str
  | [] => []
  | c :: cs => chunkRun cs [c] (pyWs c)

/-- Scanning a run of kind k (whitespace or not); acc reversed. -/
def chunkRun : Str → Str → Bool → List Str
  | [], acc, _ => [acc.reverse]
  | c :: cs, acc, k =>
    if pyWs c == k then chunkRun cs (c :: acc) k
    else acc.reverse :: chunkRun cs [c] (pyWs c)

end

/-- Greedy first-line fill: consume chunks while the line stays within width. -/
def greedy (width : Nat) : List Str → Nat → List Str × List Str
  | [], _ => ([], [])
  | c :: cs, curLen =>
    if curLen + c.length ≤ width then
      let p := greedy width cs (curLen + c.length)
      (c :: p.1, p.2)
    else ([], c :: cs)

/-- Index of the last character satisfying p (str.rfind over a slice). -/
def rfindIdx (p : Char → Bool) (l : Str) : Option Nat :=
  match l.reverse.findIdx? p with
  | some j => some (l.length - 1 - j)
  | none => none

/-- Cut position of _handle_long_word: the space left, or just after the
last hyphen of the part that fits when a usable hyphen exists. -/
def hyphenAdjust (chunk : Str) (spaceLeft : Nat) : Nat :=
  if spaceLeft < chunk.length then
    match rfindIdx (fun c => c == '-') (chunk.take spaceLeft) with
    | some hy => if 0 < hy && (chunk.take hy).any (fun c => c != '-') then hy + 1 else spaceLeft
    | none => spaceLeft
  else spaceLeft

/-- A chunk whose strip() is empty. -/
def wsChunk (c : Str) : Bool := c.all pyWs

/-- Placeholder placement: drop pieces from the end of the line until the
placeholder fits after a non-whitespace chunk; none when the line empties. -/
def phLoopRev (width : Nat) : List Str → Nat → Option Str
  | [], _ => none
  | c :: rest, curLen =>
    if !wsChunk c && curLen + placeholderText.length ≤ width then
      some ((c :: rest).reverse.flatten ++ placeholderText)
    else phLoopRev width rest (curLen - c.length)

/-- One iteration of _wrap_chunks with max_lines 1: with width at least 5 and
chunks starting with a word, a single iteration always produces the line. -/
def wrapOnce (chunks : List Str) (width : Nat) : Str :=
  let g := greedy width chunks 0
  let hl :=
    match g.2 with
    | r :: rs =>
      if width < r.length then
        let spaceLeft := width - (g.1.map List.length).sum
        let endIdx := hyphenAdjust r spaceLeft
        (g.1 ++ [r.take endIdx], r.drop endIdx :: rs)
      else (g.1, r :: rs)
    | [] => (g.1, [])
  let cur :=
    match hl.1.getLast? with
    | some c => if wsChunk c then hl.1.dropLast else hl.1
    | none => hl.1
  let curLen := (cur.map List.length).sum
  match cur with
  | [] => []
  | _ =>
    if (hl.2.isEmpty || (hl.2.length == 1 && wsChunk (hl.2.headD []))) && curLen ≤ width then
      cur.flatten
    else (phLoopRev width cur.reverse curLen).getD (placeholderText.drop 1)

/-- textwrap.shorten(text, width): collapse whitespace runs to single spaces,
then wrap to one line of at most width characters, appending the placeholder
when words are dropped.  Raises ValueError when the width is nonpositive or
smaller than the stripped placeholder. -/
def textwrapShorten (text : Str) (width : Int) : Except PyErr Str :=
  if width ≤ 0 then .error .valueError
  else if width < 5 then .error .valueError
  else
    match splitChunks (munge (List.intercalate [' '] (pySplit (pyStrip text)))) with
    | [] => .ok []
    | chunks => .ok (wrapOnce chunks width.toNat)

/-! ## feediverse definitions -/

/-- Mastodon allows attaching 4 images max. -/
def MAX_IMAGES : Nat := 4

/-- Unicode SYMBOL FOR NEWLINE, the sentinel character used by shorten. -/
def NEWLINE : Char := Char.ofNat 0xB6

/-- Hard status length bound used by main. -/
def MAX_LENGTH : Int := 490

/-- Wrapper around textwrap.shorten that does not remove newlines: newlines
are swapped to the sentinel, shortened, then swapped back. -/
def shorten (text : Str) (maxLength : Int) : Except PyErr Str :=
  (textwrapShorten (text.map fun c => if c == '\n' then NEWLINE else c) maxLength).map
    (List.map fun c => if c == NEWLINE then '\n' else c)

/-- Fields a post template may interpolate. -/
inductive TField where
  | url | link | title | summary | content | hashtags | updated
deriving DecidableEq, Repr

/-- One piece of a post template: literal text or a field placeholder. -/
inductive TItem where
  | lit (s : Str)
  | field (f : TField)
deriving DecidableEq, Repr

/-- A post template, as a sequence of pieces. -/
abbrev Template := List TItem

/-- A fetched network resource (the open response collect_images keeps). -/
structure Response where
  contentType : Str
deriving DecidableEq, Repr

/-- A tag of a raw entry. -/
structure TagRec where
  term : Str
deriving DecidableEq, Repr

/-- A link of a raw entry; rel and type accessed with .get may be absent. -/
structure LinkRec where
  href : Str
  rel : Option Str
  type : Option Str
deriving DecidableEq, Repr

/-- An enclosure of a raw entry (feedparser guarantees href and type). -/
structure EnclosureRec where
  href : Str
  type : Str
deriving DecidableEq, Repr

/-- One content fragment of a raw entry. -/
structure ContentRec where
  value : Str
deriving DecidableEq, Repr

/-- The unmodified parsed feed item; updated holds the parsed update time. -/
structure RawEntry where
  id : Str
  link : Str
  title : Str
  summary : Str
  content : List ContentRec
  tags : List TagRec
  links : List LinkRec
  enclosures : List EnclosureRec
  updated : Int
deriving DecidableEq, Repr

/-- The record get_entry returns. -/
structure TransformedEntry where
  url : Str
  link : Str
  title : Str
  summary : Str
  content : Str
  hashtags : Str
  updated : Int
  images : List Response
  generator : Option Str
deriving DecidableEq, Repr

/-- Value of a template field on an entry; the str() rendering of the parsed
timestamp is modelled by its decimal rendering. -/
def fieldValue (e : TransformedEntry) : TField → Str
  | .url => e.url
  | .link => e.link
  | .title => e.title
  | .summary => e.summary
  | .content => e.content
  | .hashtags => e.hashtags
  | .updated => intStr e.updated

/-- template.format(**entry). -/
def renderTemplate (t : Template) (e : TransformedEntry) : Str :=
  (t.map fun it => match it with | .lit s => s | .field f => fieldValue e f).flatten

/-- The copy of the entry with content and summary blanked, which make_status
renders to isolate the fixed overhead. -/
def emptyCS (e : TransformedEntry) : TransformedEntry := { e with content := [], summary := [] }

/-- make_status: render the template; if the result fits, return it as is;
otherwise grant content and summary the budget left by the empty-content
rendering and re-render with both shortened to it. -/
def makeStatus (template : Template) (entry : TransformedEntry) (maxLength : Int) :
    Except PyErr Str :=
  let status := renderTemplate template entry
  if (status.length : Int) < maxLength then .ok status
  else
    let maxContentLength := maxLength - ((renderTemplate template (emptyCS entry)).length : Int)
    do
      let c ← shorten entry.content maxContentLength
      let s ← shorten entry.summary maxContentLength
      pure (renderTemplate template { entry with content := c, summary := s })

/-- Oracle for http.request GET; none models a transport error. -/
abbrev Fetch := Str → Option Response

/-- Content types accepted for attachments. -/
def okCT (r : Response) : Bool :=
  "image/".toList.isPrefixOf r.contentType || "video/".toList.isPrefixOf r.contentType

/-- The fetch loop of collect_images: keep responses with image or video
content type, release the rest, stop once MAX_IMAGES have been kept. -/
def fetchLoop (fetch : Fetch) : List Str → List Response → List Response
  | [], images => images
  | url :: rest, images =>
    match fetch url with
    | none => fetchLoop fetch rest images
    | some resp =>
      if okCT resp then
        if MAX_IMAGES ≤ (images ++ [resp]).length then images ++ [resp]
        else fetchLoop fetch rest (images ++ [resp])
      else fetchLoop fetch rest images

mutual

/-- The a-href and img-src attribute values of a forest, in document order. -/
def urlsF : List HNode → List (Option Str)
  | [] => []
  | n :: ns => urlsN n ++ urlsF ns

/-- The candidate URL values contributed by one node and its subtree. -/
def urlsN : HNode → List (Option Str)
  | .text _ => []
  | .elem nm ats ch =>
    (if nm = "a".toList then [(ats.find? fun a => a.1 = "href".toList).map Prod.snd]
     else if nm = "img".toList then [(ats.find? fun a => a.1 = "src".toList).map Prod.snd]
     else []) ++ urlsF ch

end

/-- find_urls: collect candidate URLs from one HTML part in first-seen order,
skipping absent or empty values and duplicates. -/
def findUrls (urls : List Str) (part : Str) : List Str :=
  if part.isEmpty then urls
  else
    (urlsF (parseHTML part)).foldl
      (fun acc u? =>
        match u? with
        | some u => if !u.isEmpty && !acc.contains u then acc ++ [u] else acc
        | none => acc)
      urls

/-- UTF-8 bytes of one code point. -/
def utf8Bytes (c : Char) : List Nat :=
  let n := c.toNat
  if n < 0x80 then [n]
  else if n < 0x800 then [0xC0 + n / 64, 0x80 + n % 64]
  else if n < 0x10000 then [0xE0 + n / 4096, 0x80 + n / 64 % 64, 0x80 + n % 64]
  else [0xF0 + n / 262144, 0x80 + n / 4096 % 64, 0x80 + n / 64 % 64, 0x80 + n % 64]

/-- Uppercase hex digits of a positive number, as the %X format writes them. -/
def hexStr : Nat → Str
  | 0 => []
  | n + 1 =>
    hexStr ((n + 1) / 16) ++
      [if (n + 1) % 16 < 10 then Char.ofNat (48 + (n + 1) % 16)
       else Char.ofNat (55 + (n + 1) % 16)]
decreasing_by exact Nat.div_lt_self (Nat.succ_pos _) (by omega)

/-- The urlencodereplace error handler applied over a whole URL: every
non-ASCII character becomes percent-escaped UTF-8 bytes. -/
def urlencodeNonAscii (u : Str) : Str :=
  u.flatMap fun c =>
    if c.toNat < 128 then [c] else (utf8Bytes c).flatMap (fun b => '%' :: hexStr b)

/-- collect_images: gather candidate URLs from the summary, the content
fragments and the enclosures, apply the wordpress workarounds, then fetch
and keep at most MAX_IMAGES image or video resources. -/
def collectImages (fetch : Fetch) (entry : RawEntry) (generator : Option Str) : List Response :=
  let u1 := findUrls [] entry.summary
  let u2 := entry.content.foldl (fun acc c => findUrls acc c.value) u1
  let encl := entry.enclosures ++
    ((entry.links.filter fun l => l.rel = some "enclosure".toList).map
      fun l => EnclosureRec.mk l.href (l.type.getD []))
  let u3 := encl.foldl
    (fun acc (e : EnclosureRec) =>
      if ("image/".toList.isPrefixOf e.type || "video/".toList.isPrefixOf e.type)
          && !acc.contains e.href then acc ++ [e.href]
      else acc)
    u2
  let urls :=
    if generator = some "wordpress".toList then
      (u3.filter fun u => !containsSub "/wp-content/plugins/".toList u).map urlencodeNonAscii
    else u3
  fetchLoop fetch urls []

/-- Hashtag mangling: spaces to underscores, periods and hyphens dropped. -/
def mangleTag (t : Str) : Str :=
  ((t.map fun c => if c == ' ' then '_' else c).filter fun c => c != '.').filter
    fun c => c != '-'

/-- get_entry: turn one raw entry into its transformed record.  The wordpress
branch re-runs the hashtag derivation on the loop variable of the tag loop,
appending a second copy of the last hashtag, and raises NameError when the
entry has no tags at all. -/
def getEntry (fetch : Fetch) (entry : RawEntry) (includeImages : Bool)
    (generator : Option Str) : Except PyErr TransformedEntry :=
  let hashtags := entry.tags.map fun tg => '#' :: mangleTag tg.term
  let content := match entry.content with
    | [] => ([] : Str)
    | c :: _ => cleanup c.value
  let images := if includeImages then collectImages fetch entry generator else []
  if generator = some "wordpress".toList then
    match entry.tags.getLast? with
    | none => .error .nameError
    | some tg =>
      let links1 := entry.links.filter fun l => l.rel = some "alternate".toList
      let links2 :=
        if 1 < links1.length then entry.links.filter fun l => l.type = some "text/html".toList
        else links1
      let url := match links2 with
        | [] => entry.id
        | l :: _ => l.href
      .ok { url := url, link := entry.link, title := cleanup entry.title,
            summary := cleanup entry.summary, content := content,
            hashtags := List.intercalate [' '] (hashtags ++ ['#' :: mangleTag tg.term]),
            updated := entry.updated, images := images, generator := generator }
  else
    .ok { url := entry.id, link := entry.link, title := cleanup entry.title,
          summary := cleanup entry.summary, content := content,
          hashtags := List.intercalate [' '] hashtags,
          updated := entry.updated, images := images, generator := generator }

/-- A parsed feed document: feed-level generator metadata and its entries. -/
structure Feed where
  generator : Str
  entries : List RawEntry
deriving DecidableEq, Repr

/-- detect_generator: wordpress when the feed generator metadata holds the
wordpress.org path or equals wordpress case-insensitively. -/
def detectGenerator (feed : Feed) : Option Str :=
  if containsSub "/wordpress.org/".toList feed.generator then some "wordpress".toList
  else if feed.generator.map Char.toLower = "wordpress".toList then some "wordpress".toList
  else none

/-- The entries get_feed iterates: filtered to those strictly newer than the
watermark when one is set, then sorted ascending by parsed update time. -/
def getFeedEntries (feed : Feed) (lastUpdate : Option Int) : List RawEntry :=
  let entries := match lastUpdate with
    | some wm => feed.entries.filter fun (e : RawEntry) => decide (wm < e.updated)
    | none => feed.entries
  entries.mergeSort fun a b => decide (a.updated ≤ b.updated)

/-- get_feed: the transformed entries, in watermark-filtered sorted order. -/
def getFeed (fetch : Fetch) (feed : Feed) (lastUpdate : Option Int) (includeImages : Bool)
    (generator : Option Str) : List (Except PyErr TransformedEntry) :=
  (getFeedEntries feed lastUpdate).map fun e =>
    getEntry fetch e includeImages (generator.orElse fun _ => detectGenerator feed)

/-- One configured feed of the run. -/
structure FeedCfg where
  url : Str
  template : Template
  generator : Option Str
deriving DecidableEq, Repr

/-- The configuration state main reads: watermark and feed list. -/
structure Config where
  updated : Int
  feeds : List FeedCfg
deriving DecidableEq, Repr

/-- Result of feedparser.parse for each feed URL. -/
abbrev World := Str → Feed

/-- All raw entries processed in one run, in processing order. -/
def allProcessed (world : World) (cfg : Config) : List RawEntry :=
  (cfg.feeds.map fun fc => getFeedEntries (world fc.url) (some cfg.updated)).flatten

/-- The watermark value main persists at the end of a run: the running max of
entry update times over every feed, started from the configured watermark. -/
def runNewest (world : World) (cfg : Config) : Int :=
  cfg.feeds.foldl
    (fun newest fc =>
      (getFeedEntries (world fc.url) (some cfg.updated)).foldl
        (fun n e => max n e.updated) newest)
    cfg.updated

/-- Claim wording for the canonical URL choice: with several alternates the
narrowing keeps only the ALTERNATE links typed text/html. -/
def claimC6Url (e : RawEntry) : Str :=
  let alts := e.links.filter fun l => l.rel = some "alternate".toList
  let survivors :=
    if 1 < alts.length then alts.filter fun l => l.type = some "text/html".toList
    else alts
  match survivors with
  | [] => e.id
  | l :: _ => l.href

/-- Amended wording for the canonical URL choice: with several alternates the
re-selection ranges over all of the entry links, keeping those typed
text/html, the first surviving href winning, else the id. -/
def amendedC6Url (e : RawEntry) : Str :=
  let alts := e.links.filter fun l => l.rel = some "alternate".toList
  let survivors :=
    if 1 < alts.length then e.links.filter fun l => l.type = some "text/html".toList
    else alts
  match survivors with
  | [] => e.id
  | l :: _ => l.href

/-- Decidable equality of modelled results. -/
instance {ε α : Type} [DecidableEq ε] [DecidableEq α] : DecidableEq (Except ε α) := fun a b =>
  match a, b with
  | .ok x, .ok y => if h : x = y then isTrue (by rw [h]) else isFalse (by simp [h])
  | .error x, .error y => if h : x = y then isTrue (by rw [h]) else isFalse (by simp [h])
  | .ok _, .error _ => isFalse (by simp)
  | .error _, .ok _ => isFalse (by simp)

/-! ## Concrete fixtures used by witnesses and counterexamples -/

/-- Two hundred characters of repeated words. -/
def w40 : Str := (List.replicate 40 "word ".toList).flatten

/-- Entry whose content and summary are both long. -/
def entC1 : TransformedEntry :=
  { url := "u".toList, link := "l".toList, title := "t".toList, summary := w40,
    content := w40, hashtags := [], updated := 0, images := [], generator := none }

/-- Template interpolating content and summary around one literal space. -/
def tmplC1 : Template := [.field .content, .lit " ".toList, .field .summary]

/-- Entry with a one-character content and empty summary. -/
def entC2 : TransformedEntry :=
  { url := [], link := [], title := [], summary := [], content := "x".toList,
    hashtags := [], updated := 0, images := [], generator := none }

/-- Template consisting of a ten-character literal. -/
def tmplC2 : Template := [.lit "0123456789".toList]

/-- Transport oracle on which every request fails. -/
def noFetch : Fetch := fun _ => none

/-- Wordpress-generated entry: two alternate links typed application/json and
one enclosure link typed text/html. -/
def entWP : RawEntry :=
  { id := "ID".toList, link := "L".toList, title := "T".toList, summary := "S".toList,
    content := [], tags := [⟨"alpha".toList⟩, ⟨"beta".toList⟩],
    links := [⟨"A".toList, some "enclosure".toList, some "text/html".toList⟩,
              ⟨"B".toList, some "alternate".toList, some "application/json".toList⟩,
              ⟨"C".toList, some "alternate".toList, some "application/json".toList⟩],
    enclosures := [], updated := 7 }

/-- The same entry with an empty tag list. -/
def entNoTags : RawEntry := { entWP with tags := [] }

/-- A response with an image content type. -/
def respPng : Response := ⟨"image/png".toList⟩

/-- Oracle answering every URL with the png response. -/
def fetchPng : Fetch := fun _ => some respPng

/-- Entry whose only media candidate is a single enclosure. -/
def entEnc : RawEntry :=
  { id := "E".toList, link := [], title := [], summary := [], content := [],
    tags := [], links := [], enclosures := [⟨"u".toList, "image/png".toList⟩],
    updated := 0 }

/-- Entry timestamped after the fixture watermark. -/
def entT5 : RawEntry :=
  { id := "e5".toList, link := [], title := [], summary := [], content := [],
    tags := [], links := [], enclosures := [], updated := 5 }

/-- Entry timestamped before the fixture watermark. -/
def entT1 : RawEntry :=
  { id := "e1".toList, link := [], title := [], summary := [], content := [],
    tags := [], links := [], enclosures := [], updated := 1 }

/-- Fixture feed holding both entries. -/
def feed0 : Feed := ⟨[], [entT5, entT1]⟩

/-- Fixture world mapping every URL to the fixture feed. -/
def world0 : World := fun _ => feed0

/-- Fixture configuration: watermark 3, one feed. -/
def cfg0 : Config := ⟨3, [⟨"f".toList, [], none⟩]⟩

/-- Text containing both a sentinel character and a real newline. -/
def txtC10 : Str := 'a' :: NEWLINE :: 'b' :: '\n' :: 'c' :: []

/-- The same text with the sentinel replaced by a newline. -/
def txtC10sw : Str := txtC10.map fun c => if c = NEWLINE then '\n' else c

/-- Whether two adjacent characters satisfying p occur somewhere. -/
def hasPair (p : Char → Char → Bool) : Str → Bool
  | c :: d :: cs => p c d || hasPair p (d :: cs)
  | _ => false

/-- Whether three adjacent characters satisfying p occur somewhere. -/
def hasTriple (p : Char → Char → Char → Bool) : Str → Bool
  | c :: d :: e :: cs => p c d e || hasTriple p (d :: e :: cs)
  | _ => false

/-- Adjacent double space. -/
def ssPair (c d : Char) : Bool := c == ' ' && d == ' '

/-- Space directly before a newline. -/
def spNlPair (c d : Char) : Bool := c == ' ' && d == '\n'

/-- Three adjacent newlines. -/
def nl3Triple (c d e : Char) : Bool := c == '\n' && d == '\n' && e == '\n'

/-- The non-breaking space character. -/
def nbspChar : Char := Char.ofNat 0xA0

/-- The C8 counterexample input: a double-escaped angle bracket. -/
def xC8 : Str := "&amp;lt;".toList

/-! ## Theorems -/

/-- C10: a sentinel character already present in the input is handled exactly
like a newline by shorten: the result equals the one for the input with every
sentinel replaced by a newline, and the surviving portion never shows the
sentinel, each occurrence having been replaced by a real newline. -/
theorem c10_sentinel_becomes_newline (text : Str) (width : Int)
    (hmem : NEWLINE ∈ text) :
    shorten text width =
      shorten (text.map fun c => if c = NEWLINE then '\n' else c) width ∧
    ∀ s, shorten text width = .ok s → NEWLINE ∉ s := by
  constructor
  · have harg : ((text.map fun c => if c = NEWLINE then '\n' else c).map
        fun c => if c == '\n' then NEWLINE else c) =
        (text.map fun c => if c == '\n' then NEWLINE else c) := by
      rw [List.map_map]
      apply List.map_congr_left
      intro c _
      by_cases h1 : c = NEWLINE
      · subst h1; simp [NEWLINE]
      · by_cases h2 : c = '\n'
        · subst h2; simp
        · simp [h1, h2]
    unfold shorten
    rw [harg]
  · intro s hs hbad
    unfold shorten at hs
    cases h : textwrapShorten (text.map fun c => if c == '\n' then NEWLINE else c) width with
    | error e => rw [h] at hs; simp [Except.map] at hs
    | ok t =>
      rw [h] at hs
      simp [Except.map] at hs
      subst hs
      obtain ⟨c, _, heq⟩ := List.mem_map.mp hbad
      by_cases h2 : c = NEWLINE
      · simp [h2, NEWLINE] at heq
      · simp [h2] at heq

/-- C10 witness at the concrete fixture text and width 20. -/
theorem c10_sentinel_becomes_newline_witness :
    NEWLINE ∈ txtC10 ∧ shorten txtC10 20 = shorten txtC10sw 20 :=
  ⟨by decide, (c10_sentinel_becomes_newline txtC10 20 (by decide)).1⟩

/-- C9: transforming any entry with an empty tag list under the wordpress
generator raises NameError, because the CMS branch reads the unbound tag-loop
variable. -/
theorem c9_wordpress_empty_tags_nameerror (fetch : Fetch) (entry : RawEntry)
    (includeImages : Bool) (h : entry.tags = []) :
    getEntry fetch entry includeImages (some "wordpress".toList) = .error .nameError := by
  unfold getEntry
  simp [h]

/-- C9 witness: the concrete tagless wordpress entry. -/
theorem c9_wordpress_empty_tags_nameerror_witness :
    entNoTags.tags = [] ∧
      getEntry noFetch entNoTags false (some "wordpress".toList) = .error .nameError :=
  ⟨rfl, c9_wordpress_empty_tags_nameerror noFetch entNoTags false rfl⟩

/-- C7: evaluation at the failing input: a wordpress entry tagged alpha and
beta receives the hashtags string with the last hashtag duplicated by the
re-derivation in the CMS branch, not one hashtag per tag. -/
theorem c7_duplicate_hashtag_eval :
    (getEntry noFetch entWP false (some "wordpress".toList)).toOption.map
        (fun r => r.hashtags) = some "#alpha #beta #beta".toList ∧
      "#alpha #beta #beta".toList ≠ "#alpha #beta".toList := by
  constructor
  · decide
  · decide

/-- C6 counterexample: on the fixture entry the code selects the href of a
non-alternate text/html link, while the claimed narrowing over alternate
links only would fall back to the entry id. -/
theorem c6_link_choice_counterexample :
    (getEntry noFetch entWP false (some "wordpress".toList)).toOption.map
        (fun r => r.url) = some "A".toList ∧
    claimC6Url entWP = "ID".toList ∧ ("A".toList : Str) ≠ "ID".toList := by
  refine ⟨by decide, by decide, by decide⟩

/-- C6 amended: alternate links are preferred, but when more than one
alternate exists the re-selection ranges over ALL entry links keeping those
declared text/html; the first surviving href is used, else the id. -/
theorem c6_link_choice_amended (fetch : Fetch) (entry : RawEntry)
    (includeImages : Bool) (h : entry.tags ≠ []) :
    (getEntry fetch entry includeImages (some "wordpress".toList)).toOption.map
      (fun r => r.url) = some (amendedC6Url entry) := by
  unfold getEntry amendedC6Url
  cases hl : entry.tags.getLast? with
  | none => exact absurd (List.getLast?_eq_none_iff.mp hl) h
  | some tg =>
    simp only [hl]
    simp
    exact ⟨_, rfl, rfl⟩

/-- C6 amended witness at the fixture entry. -/
theorem c6_link_choice_amended_witness :
    entWP.tags ≠ [] ∧
      (getEntry noFetch entWP false (some "wordpress".toList)).toOption.map
        (fun r => r.url) = some (amendedC6Url entWP) :=
  ⟨by decide, c6_link_choice_amended noFetch entWP false (by decide)⟩

set_option maxRecDepth 100000 in
/-- C1: evaluation at the failing input: the fixed overhead of the template
is below the bound, yet make_status returns a status exceeding it, because
content and summary are each granted the whole remaining budget. -/
theorem c1_overflow_eval :
    ((renderTemplate tmplC1 (emptyCS entC1)).length : Int) < 100 ∧
      100 ≤ (((makeStatus tmplC1 entC1 100).toOption.map List.length).getD 0) := by
  decide

/-- C2 counterexample: with fixed overhead at least the bound, make_status
raises ValueError from the shortening pass instead of returning a status. -/
theorem c2_nonpositive_budget_counterexample :
    (5 : Int) ≤ ((renderTemplate tmplC2 (emptyCS entC2)).length : Int) ∧
      makeStatus tmplC2 entC2 5 = .error .valueError := by
  refine ⟨by decide, by decide⟩

/-- Rendering with content and summary blanked never lengthens the result. -/
theorem renderTemplate_emptyCS_le (t : Template) (e : TransformedEntry) :
    (renderTemplate t (emptyCS e)).length ≤ (renderTemplate t e).length := by
  induction t with
  | nil => simp [renderTemplate]
  | cons it ts ih =>
    cases it with
    | lit s =>
      simp only [renderTemplate, List.map_cons, List.flatten_cons, List.length_append] at ih ⊢
      omega
    | field f =>
      have hf : (fieldValue (emptyCS e) f).length ≤ (fieldValue e f).length := by
        cases f <;> simp [fieldValue, emptyCS]
      simp only [renderTemplate, List.map_cons, List.flatten_cons, List.length_append] at ih ⊢
      omega

/-- C2 amended: whenever the fixed-overhead rendering is at least maxLength,
make_status does not return a status: the shortening pass receives a
nonpositive width and raises ValueError. -/
theorem c2_nonpositive_budget_amended (template : Template) (entry : TransformedEntry)
    (maxLength : Int)
    (h : maxLength ≤ ((renderTemplate template (emptyCS entry)).length : Int)) :
    makeStatus template entry maxLength = .error .valueError := by
  have hfull : ¬ (((renderTemplate template entry).length : Int) < maxLength) := by
    have := renderTemplate_emptyCS_le template entry
    omega
  have hb : maxLength - ((renderTemplate template (emptyCS entry)).length : Int) ≤ 0 := by
    omega
  simp only [makeStatus, shorten, textwrapShorten]
  rw [if_neg hfull, if_pos hb]
  rfl

/-- C2 amended witness at the fixture template and entry. -/
theorem c2_nonpositive_budget_amended_witness :
    (5 : Int) ≤ ((renderTemplate tmplC2 (emptyCS entC2)).length : Int) ∧
      makeStatus tmplC2 entC2 5 = .error .valueError :=
  ⟨by decide, c2_nonpositive_budget_amended tmplC2 entC2 5 (by decide)⟩

/-- Invariant of the collect_images fetch loop: starting below the cap with
only accepted content types, it ends at or below the cap with only accepted
content types. -/
theorem fetchLoop_spec (fetch : Fetch) (urls : List Str) (images : List Response)
    (hlen : images.length < MAX_IMAGES) (hok : ∀ r ∈ images, okCT r) :
    (fetchLoop fetch urls images).length ≤ MAX_IMAGES ∧
      ∀ r ∈ fetchLoop fetch urls images, okCT r := by
  induction urls generalizing images with
  | nil => exact ⟨Nat.le_of_lt hlen, hok⟩
  | cons u rest ih =>
    simp only [fetchLoop]
    cases fetch u with
    | none => exact ih images hlen hok
    | some resp =>
      dsimp only
      by_cases hct : okCT resp
      · rw [if_pos hct]
        by_cases hful : MAX_IMAGES ≤ (images ++ [resp]).length
        · rw [if_pos hful]
          refine ⟨?_, ?_⟩
          · simp only [List.length_append, List.length_cons, List.length_nil]
            simp only [MAX_IMAGES] at hlen ⊢
            omega
          · intro r hr
            rcases List.mem_append.mp hr with hm | hm
            · exact hok r hm
            · rw [List.mem_singleton.mp hm]; exact hct
        · rw [if_neg hful]
          apply ih
          · simp only [List.length_append, List.length_cons, List.length_nil] at hful ⊢
            omega
          · intro r hr
            rcases List.mem_append.mp hr with hm | hm
            · exact hok r hm
            · rw [List.mem_singleton.mp hm]; exact hct
      · rw [if_neg hct]
        exact ih images hlen hok

/-- C3: collect_images keeps at most MAX_IMAGES (4) handles, and every kept
handle has a content type starting with image/ or video/. -/
theorem c3_media_cap (fetch : Fetch) (entry : RawEntry) (generator : Option Str) :
    MAX_IMAGES = 4 ∧
      (collectImages fetch entry generator).length ≤ MAX_IMAGES ∧
      ∀ r ∈ collectImages fetch entry generator,
        ("image/".toList.isPrefixOf r.contentType ||
          "video/".toList.isPrefixOf r.contentType) := by
  refine ⟨rfl, ?_⟩
  unfold collectImages
  exact fetchLoop_spec fetch _ [] (by decide) (by intro r hr; exact absurd hr (List.not_mem_nil r))

/-- C3 witness at a concrete oracle and entry with one enclosure. -/
theorem c3_media_cap_witness :
    (collectImages fetchPng entEnc none).length ≤ MAX_IMAGES ∧
      ("image/".toList.isPrefixOf respPng.contentType ||
        "video/".toList.isPrefixOf respPng.contentType) :=
  ⟨(c3_media_cap fetchPng entEnc none).2.1,
    (c3_media_cap fetchPng entEnc none).2.2 respPng (by decide)⟩

/-- C4: with a watermark set, the entries get_feed iterates are exactly the
feed entries whose parsed update time is strictly greater than the
watermark: one at or before the watermark is excluded, one after is kept. -/
theorem c4_watermark_filter (feed : Feed) (wm : Int) (e : RawEntry) :
    e ∈ getFeedEntries feed (some wm) ↔ e ∈ feed.entries ∧ wm < e.updated := by
  unfold getFeedEntries
  simp [List.mem_mergeSort, List.mem_filter]

/-- Starting value is a lower bound of the running maximum. -/
theorem foldl_max_le_init (l : List RawEntry) (init : Int) :
    init ≤ l.foldl (fun n e => max n e.updated) init := by
  induction l generalizing init with
  | nil => simp
  | cons a l ih => exact le_trans (le_max_left _ _) (ih (max init a.updated))

/-- Every member is a lower bound of the running maximum. -/
theorem foldl_max_mem_le (l : List RawEntry) (init : Int) :
    ∀ e ∈ l, e.updated ≤ l.foldl (fun n e => max n e.updated) init := by
  induction l generalizing init with
  | nil => intro e he; exact absurd he (List.not_mem_nil e)
  | cons a l ih =>
    intro e he
    rcases List.mem_cons.mp he with h | h
    · subst h
      exact le_trans (le_max_right _ _) (foldl_max_le_init l (max init e.updated))
    · exact ih (max init a.updated) e h

/-- The running maximum is the start or the stamp of some member. -/
theorem foldl_max_cases (l : List RawEntry) (init : Int) :
    l.foldl (fun n e => max n e.updated) init = init ∨
      ∃ e ∈ l, l.foldl (fun n e => max n e.updated) init = e.updated := by
  induction l generalizing init with
  | nil => exact Or.inl rfl
  | cons a l ih =>
    rcases ih (max init a.updated) with h | ⟨e, he, h⟩
    · rw [List.foldl_cons, h]
      rcases max_choice init a.updated with hm | hm
      · exact Or.inl hm
      · exact Or.inr ⟨a, List.mem_cons_self a l, hm⟩
    · exact Or.inr ⟨e, List.mem_cons_of_mem a he, by rw [List.foldl_cons]; exact h⟩

/-- Per-feed folding equals folding over the flattened entry lists. -/
theorem foldl_foldl_flatten (sel : FeedCfg → List RawEntry) (fs : List FeedCfg) (init : Int) :
    fs.foldl (fun acc b => (sel b).foldl (fun n e => max n e.updated) acc) init =
      ((fs.map sel).flatten).foldl (fun n e => max n e.updated) init := by
  induction fs generalizing init with
  | nil => rfl
  | cons b fs ih =>
    simp only [List.foldl_cons, List.map_cons, List.flatten_cons, List.foldl_append]
    exact ih _

/-- The persisted watermark is the fold of max over all processed entries. -/
theorem runNewest_eq_foldl (world : World) (cfg : Config) :
    runNewest world cfg =
      (allProcessed world cfg).foldl (fun n e => max n e.updated) cfg.updated :=
  foldl_foldl_flatten _ cfg.feeds cfg.updated

/-- C5: the watermark persisted at the end of a run never decreases, bounds
the stamp of every processed entry, and equals the starting watermark or the
stamp of some processed entry: it is the maximum of the initial watermark
and the stamps of all entries processed across all feeds. -/
theorem c5_watermark_advance (world : World) (cfg : Config) :
    cfg.updated ≤ runNewest world cfg ∧
      (∀ e ∈ allProcessed world cfg, e.updated ≤ runNewest world cfg) ∧
      (runNewest world cfg = cfg.updated ∨
        ∃ e ∈ allProcessed world cfg, runNewest world cfg = e.updated) := by
  rw [runNewest_eq_foldl]
  exact ⟨foldl_max_le_init _ _, foldl_max_mem_le _ _, foldl_max_cases _ _⟩

/-- A markup-free string tokenizes to its plain characters. -/
theorem tokenize_plain (l : Str) (hlt : '<' ∉ l) (hamp : '&' ∉ l) :
    tokenize l = l.map Tok.ch := by
  induction l with
  | nil => rfl
  | cons c cs ih =>
    simp only [List.mem_cons, not_or] at hlt hamp
    have h1 : (c == '<') = false := beq_eq_false_iff_ne.mpr (Ne.symm hlt.1)
    have h2 : (c == '&') = false := beq_eq_false_iff_ne.mpr (Ne.symm hamp.1)
    simp only [tokenize, h1, h2, Bool.false_eq_true, if_false, List.map_cons]
    exact congrArg _ (ih hlt.2 hamp.2)

/-- Building from plain character tokens yields plain text nodes. -/
theorem buildToks_chs (l : Str) (out : List HNode) :
    buildToks (l.map Tok.ch) [] out = out.reverse ++ l.map HNode.text := by
  induction l generalizing out with
  | nil => simp [buildToks, closeAll]
  | cons c cs ih =>
    simp only [List.map_cons, buildToks, pushNode]
    rw [ih (.text c :: out)]
    simp

/-- A markup-free string parses to its characters as text nodes. -/
theorem parseHTML_plain (l : Str) (hlt : '<' ∉ l) (hamp : '&' ∉ l) :
    parseHTML l = l.map HNode.text := by
  unfold parseHTML
  rw [tokenize_plain l hlt hamp, buildToks_chs]
  simp

/-- Read-more removal keeps a pure-text forest unchanged. -/
theorem rmRM_texts (l : Str) : rmRM (l.map HNode.text) = l.map HNode.text := by
  induction l with
  | nil => rfl
  | cons c cs ih => simp [rmRM, rmRMN, ih]

/-- Text extraction from a pure-text forest recovers the string. -/
theorem getTextF_texts (l : Str) : getTextF (l.map HNode.text) = l := by
  induction l with
  | nil => rfl
  | cons c cs ih => simp [getTextF, getTextN, ih]

/-- Prepending a character that can never open the pair keeps the absence. -/
theorem hasPair_cons_false (p : Char → Char → Bool) (c : Char) (l : Str)
    (hc : ∀ y, p c y = false) (hl : hasPair p l = false) :
    hasPair p (c :: l) = false := by
  cases l with
  | nil => rfl
  | cons d cs => simp [hasPair, hc, hl]

/-- Pair absence passes to the tail. -/
theorem hasPair_tail (p : Char → Char → Bool) (c : Char) (l : Str)
    (h : hasPair p (c :: l) = false) : hasPair p l = false := by
  cases l with
  | nil => rfl
  | cons d cs =>
    simp only [hasPair, Bool.or_eq_false_iff] at h
    exact h.2

/-- Pair absence passes to a suffix across an append. -/
theorem hasPair_append_left (p : Char → Char → Bool) (u v : Str)
    (h : hasPair p (u ++ v) = false) : hasPair p v = false := by
  induction u with
  | nil => exact h
  | cons c cs ih => exact ih (hasPair_tail p c _ h)

/-- Pair absence passes to a prefix across an append. -/
theorem hasPair_append_right (p : Char → Char → Bool) (u v : Str)
    (h : hasPair p (u ++ v) = false) : hasPair p u = false := by
  induction u with
  | nil => rfl
  | cons c cs ih =>
    cases cs with
    | nil => rfl
    | cons d cs2 =>
      simp only [List.cons_append, hasPair, Bool.or_eq_false_iff] at h ⊢
      exact ⟨h.1, ih h.2⟩

/-- Pair absence passes to any infix. -/
theorem hasPair_infix (p : Char → Char → Bool) {s l : Str} (hinf : s <:+: l)
    (h : hasPair p l = false) : hasPair p s = false := by
  obtain ⟨u, v, rfl⟩ := hinf
  exact hasPair_append_right p s v (hasPair_append_left p u (s ++ v) (by simpa using h))

/-- Prepending a character that can never open the triple keeps the absence. -/
theorem hasTriple_cons_false (p : Char → Char → Char → Bool) (c : Char) (l : Str)
    (hc : ∀ y z, p c y z = false) (hl : hasTriple p l = false) :
    hasTriple p (c :: l) = false := by
  cases l with
  | nil => rfl
  | cons d cs =>
    cases cs with
    | nil => rfl
    | cons e cs2 => simp [hasTriple, hc, hl]

/-- Triple absence passes to the tail. -/
theorem hasTriple_tail (p : Char → Char → Char → Bool) (c : Char) (l : Str)
    (h : hasTriple p (c :: l) = false) : hasTriple p l = false := by
  cases l with
  | nil => rfl
  | cons d cs =>
    cases cs with
    | nil => rfl
    | cons e cs2 =>
      simp only [hasTriple, Bool.or_eq_false_iff] at h
      exact h.2

/-- Triple absence passes to a suffix across an append. -/
theorem hasTriple_append_left (p : Char → Char → Char → Bool) (u v : Str)
    (h : hasTriple p (u ++ v) = false) : hasTriple p v = false := by
  induction u with
  | nil => exact h
  | cons c cs ih => exact ih (hasTriple_tail p c _ h)

/-- Triple absence passes to a prefix across an append. -/
theorem hasTriple_append_right (p : Char → Char → Char → Bool) (u v : Str)
    (h : hasTriple p (u ++ v) = false) : hasTriple p u = false := by
  induction u with
  | nil => rfl
  | cons c cs ih =>
    cases cs with
    | nil => rfl
    | cons d cs2 =>
      cases cs2 with
      | nil => rfl
      | cons e cs3 =>
        simp only [List.cons_append, hasTriple, Bool.or_eq_false_iff] at h ⊢
        exact ⟨h.1, ih h.2⟩

/-- Triple absence passes to any infix. -/
theorem hasTriple_infix (p : Char → Char → Char → Bool) {s l : Str} (hinf : s <:+: l)
    (h : hasTriple p l = false) : hasTriple p s = false := by
  obtain ⟨u, v, rfl⟩ := hinf
  exact hasTriple_append_right p s v (hasTriple_append_left p u (s ++ v) (by simpa using h))

/-- The strip result sits inside the original string. -/
theorem pyStrip_infix (l : Str) : pyStrip l <:+: l := by
  unfold pyStrip
  exact (List.rdropWhile_prefix _ _).isInfix.trans (List.dropWhile_suffix _).isInfix

/-- Left stripping after a full strip changes nothing. -/
theorem dropWhile_rdropWhile_dropWhile (p : Char → Bool) (l : Str) :
    ((l.dropWhile p).rdropWhile p).dropWhile p = (l.dropWhile p).rdropWhile p := by
  rw [List.dropWhile_eq_self_iff]
  intro hl
  obtain ⟨r, hr⟩ := List.rdropWhile_prefix p (l.dropWhile p)
  have hne : (l.dropWhile p).rdropWhile p ≠ [] := by
    intro hemp
    rw [hemp] at hl
    simp at hl
  have hne2 : l.dropWhile p ≠ [] := by
    intro hemp
    apply hne
    rw [hemp, List.rdropWhile_nil]
  have hq : ((l.dropWhile p).rdropWhile p).head? = (l.dropWhile p).head? := by
    conv_rhs => rw [← hr]
    rw [List.head?_append, List.head?_eq_head hne]
    rfl
  have hhead : ((l.dropWhile p).rdropWhile p).get ⟨0, hl⟩ =
      (l.dropWhile p).head hne2 := by
    rw [List.get_mk_zero]
    have := hq
    rw [List.head?_eq_head hne, List.head?_eq_head hne2] at this
    exact Option.some.inj this
  rw [hhead]
  simp [List.head_dropWhile_not p l hne2]

/-- Stripping is idempotent. -/
theorem pyStrip_idem (l : Str) : pyStrip (pyStrip l) = pyStrip l := by
  unfold pyStrip
  rw [dropWhile_rdropWhile_dropWhile, List.rdropWhile_idempotent]

/-- The nbsp pass leaves no nbsp in its output. -/
theorem subNbsp_no_nbsp (l : Str) :
    nbspChar ∉ subNbsp l ∧ nbspChar ∉ subNbspSkip l := by
  induction l with
  | nil => exact ⟨List.not_mem_nil _, List.not_mem_nil _⟩
  | cons c cs ih =>
    have hsp : nbspChar ≠ ' ' := by decide
    constructor
    · simp only [subNbsp]
      split
      · intro hm
        rcases List.mem_cons.mp hm with he | he
        · exact hsp he
        · exact ih.2 he
      · next h =>
        intro hm
        rcases List.mem_cons.mp hm with he | he
        · exact h (by rw [← he]; decide)
        · exact ih.1 he
    · simp only [subNbspSkip]
      split
      · exact ih.2
      · next h =>
        intro hm
        rcases List.mem_cons.mp hm with he | he
        · exact h (by rw [← he]; decide)
        · exact ih.1 he

/-- The nbsp pass is the identity on nbsp-free text. -/
theorem subNbsp_id (l : Str) (h : nbspChar ∉ l) : subNbsp l = l := by
  induction l with
  | nil => rfl
  | cons c cs ih =>
    simp only [List.mem_cons, not_or] at h
    simp only [subNbsp]
    rw [if_neg, ih h.2]
    intro hc
    have hn : c.toNat = 0xA0 := beq_iff_eq.mp hc
    exact h.1 (by rw [nbspChar, ← hn, Char.ofNat_toNat])

/-- Characters of the space-collapse output come from the input or are
spaces. -/
theorem mem_subSp2 (a : Char) (l : Str) :
    (a ∈ subSp2 l → a = ' ' ∨ a ∈ l) ∧ (a ∈ subSp2Skip l → a = ' ' ∨ a ∈ l) := by
  induction l with
  | nil => simp [subSp2, subSp2Skip]
  | cons c cs ih =>
    constructor
    · simp only [subSp2]
      split
      · intro hm
        rcases List.mem_cons.mp hm with he | he
        · exact Or.inl he
        · rcases ih.2 he with h | h
          · exact Or.inl h
          · exact Or.inr (List.mem_cons_of_mem c h)
      · intro hm
        rcases List.mem_cons.mp hm with he | he
        · exact Or.inr (he ▸ List.mem_cons_self c cs)
        · rcases ih.1 he with h | h
          · exact Or.inl h
          · exact Or.inr (List.mem_cons_of_mem c h)
    · simp only [subSp2Skip]
      split
      · intro hm
        rcases ih.2 hm with h | h
        · exact Or.inl h
        · exact Or.inr (List.mem_cons_of_mem c h)
      · intro hm
        rcases List.mem_cons.mp hm with he | he
        · exact Or.inr (he ▸ List.mem_cons_self c cs)
        · rcases ih.1 he with h | h
          · exact Or.inl h
          · exact Or.inr (List.mem_cons_of_mem c h)

/-- Characters of the space-before-newline output come from the input or are
spaces or newlines. -/
theorem mem_subSpNl (a : Char) (l : Str) :
    (a ∈ subSpNl l → a = ' ' ∨ a = '\n' ∨ a ∈ l) ∧
      (∀ k, a ∈ spNl l k → a = ' ' ∨ a = '\n' ∨ a ∈ l) := by
  induction l with
  | nil =>
    constructor
    · simp [subSpNl]
    · intro k hm
      simp only [spNl] at hm
      exact Or.inl (List.eq_of_mem_replicate hm)
  | cons c cs ih =>
    constructor
    · simp only [subSpNl]
      split
      · intro hm
        rcases ih.2 1 hm with h | h | h
        · exact Or.inl h
        · exact Or.inr (Or.inl h)
        · exact Or.inr (Or.inr (List.mem_cons_of_mem c h))
      · intro hm
        rcases List.mem_cons.mp hm with he | he
        · exact Or.inr (Or.inr (he ▸ List.mem_cons_self c cs))
        · rcases ih.1 he with h | h | h
          · exact Or.inl h
          · exact Or.inr (Or.inl h)
          · exact Or.inr (Or.inr (List.mem_cons_of_mem c h))
    · intro k
      simp only [spNl]
      split
      · intro hm
        rcases ih.2 (k + 1) hm with h | h | h
        · exact Or.inl h
        · exact Or.inr (Or.inl h)
        · exact Or.inr (Or.inr (List.mem_cons_of_mem c h))
      · split
        · intro hm
          rcases List.mem_cons.mp hm with he | he
          · exact Or.inr (Or.inl he)
          · rcases ih.1 he with h | h | h
            · exact Or.inl h
            · exact Or.inr (Or.inl h)
            · exact Or.inr (Or.inr (List.mem_cons_of_mem c h))
        · intro hm
          rcases List.mem_append.mp hm with he | he
          · exact Or.inl (List.eq_of_mem_replicate he)
          · rcases List.mem_cons.mp he with he2 | he2
            · exact Or.inr (Or.inr (he2 ▸ List.mem_cons_self c cs))
            · rcases ih.1 he2 with h | h | h
              · exact Or.inl h
              · exact Or.inr (Or.inl h)
              · exact Or.inr (Or.inr (List.mem_cons_of_mem c h))

/-- Characters of the newline-collapse output come from the input or are
newlines. -/
theorem mem_subNl3 (a : Char) (l : Str) :
    (a ∈ subNl3 l → a = '\n' ∨ a ∈ l) ∧ (a ∈ nl2 l → a = '\n' ∨ a ∈ l) ∧
      (a ∈ nlSkip l → a = '\n' ∨ a ∈ l) := by
  induction l with
  | nil => simp [subNl3, nl2, nlSkip]
  | cons c cs ih =>
    have step : ∀ f : Str → Str, (a ∈ f cs → a = '\n' ∨ a ∈ cs) →
        a ∈ c :: f cs → a = '\n' ∨ a ∈ c :: cs := by
      intro f hf hm
      rcases List.mem_cons.mp hm with he | he
      · exact Or.inr (he ▸ List.mem_cons_self c cs)
      · rcases hf he with h | h
        · exact Or.inl h
        · exact Or.inr (List.mem_cons_of_mem c h)
    have stepNl : ∀ f : Str → Str, (a ∈ f cs → a = '\n' ∨ a ∈ cs) →
        a ∈ '\n' :: f cs → a = '\n' ∨ a ∈ c :: cs := by
      intro f hf hm
      rcases List.mem_cons.mp hm with he | he
      · exact Or.inl he
      · rcases hf he with h | h
        · exact Or.inl h
        · exact Or.inr (List.mem_cons_of_mem c h)
    refine ⟨?_, ?_, ?_⟩
    · simp only [subNl3]
      split
      · exact stepNl nl2 ih.2.1
      · exact step subNl3 ih.1
    · simp only [nl2]
      split
      · exact stepNl nlSkip ih.2.2
      · exact step subNl3 ih.1
    · simp only [nlSkip]
      split
      · intro hm
        rcases ih.2.2 hm with h | h
        · exact Or.inl h
        · exact Or.inr (List.mem_cons_of_mem c h)
      · exact step subNl3 ih.1

/-- The space collapse leaves no double space; the skip state resumes on a
non-space. -/
theorem subSp2_no_ss (l : Str) :
    hasPair ssPair (subSp2 l) = false ∧ hasPair ssPair (subSp2Skip l) = false ∧
      (subSp2Skip l).head? ≠ some ' ' := by
  induction l with
  | nil => exact ⟨rfl, rfl, by simp [subSp2Skip]⟩
  | cons c cs ih =>
    refine ⟨?_, ?_, ?_⟩
    · simp only [subSp2]
      split
      · cases hX : subSp2Skip cs with
        | nil => rfl
        | cons y ys =>
          have hy : y ≠ ' ' := by
            intro he
            apply ih.2.2
            rw [hX, he]
            rfl
          have hrest : hasPair ssPair (y :: ys) = false := by rw [← hX]; exact ih.2.1
          simp [hasPair, ssPair, hy, hrest]
      · next h =>
        apply hasPair_cons_false
        · intro y; simp [ssPair, h]
        · exact ih.1
    · simp only [subSp2Skip]
      split
      · exact ih.2.1
      · next h =>
        apply hasPair_cons_false
        · intro y; simp [ssPair, h]
        · exact ih.1
    · simp only [subSp2Skip]
      split
      · exact ih.2.2
      · next h =>
        simp only [List.head?_cons]
        intro he
        exact h (by rw [Option.some.inj he]; rfl)

/-- Spaces prepended to a pair-free text not starting with a newline keep
the space-newline pattern absent. -/
theorem hasPair_spnl_spaces (k : Nat) (t : Str) (h : hasPair spNlPair t = false)
    (hh : t.head? ≠ some '\n') :
    hasPair spNlPair (List.replicate k ' ' ++ t) = false := by
  induction k with
  | zero => simpa using h
  | succ k ihk =>
    rw [List.replicate_succ, List.cons_append]
    cases hk : List.replicate k ' ' ++ t with
    | nil => rfl
    | cons y ys =>
      have hy : y ≠ '\n' := by
        cases k with
        | zero =>
          simp only [List.replicate_zero, List.nil_append] at hk
          intro he
          apply hh
          rw [hk, he]
          rfl
        | succ k2 =>
          rw [List.replicate_succ, List.cons_append] at hk
          have h1 : ' ' = y := (List.cons_eq_cons.mp hk).1
          intro he
          rw [← h1] at he
          exact absurd he (by decide)
      have hrest : hasPair spNlPair (y :: ys) = false := by rw [← hk]; exact ihk
      simp [hasPair, spNlPair, hy, hrest]

/-- The space-newline pass leaves no space directly before a newline. -/
theorem subSpNl_no_spnl (l : Str) :
    hasPair spNlPair (subSpNl l) = false ∧ ∀ k, hasPair spNlPair (spNl l k) = false := by
  induction l with
  | nil =>
    refine ⟨rfl, fun k => ?_⟩
    simp only [spNl]
    have := hasPair_spnl_spaces k [] rfl (by simp)
    simpa using this
  | cons c cs ih =>
    refine ⟨?_, fun k => ?_⟩
    · simp only [subSpNl]
      split
      · exact ih.2 1
      · next h =>
        apply hasPair_cons_false
        · intro y; simp [spNlPair, h]
        · exact ih.1
    · simp only [spNl]
      split
      · exact ih.2 (k + 1)
      · split
        · apply hasPair_cons_false
          · intro y; rfl
          · exact ih.1
        · next h1 h2 =>
          apply hasPair_spnl_spaces
          · apply hasPair_cons_false
            · intro y; simp [spNlPair, h1]
            · exact ih.1
          · simp only [List.head?_cons]
            intro he
            exact h2 (by rw [Option.some.inj he]; rfl)

/-- The space-newline pass preserves absence of double spaces. -/
theorem subSpNl_pres_ss (l : Str) :
    (hasPair ssPair l = false → hasPair ssPair (subSpNl l) = false) ∧
      (hasPair ssPair (' ' :: l) = false → hasPair ssPair (spNl l 1) = false) := by
  induction l with
  | nil => exact ⟨fun _ => rfl, fun _ => rfl⟩
  | cons c cs ih =>
    refine ⟨?_, ?_⟩
    · intro h
      simp only [subSpNl]
      split
      · next hc =>
        have hc' : c = ' ' := beq_iff_eq.mp hc
        subst hc'
        exact ih.2 h
      · next hc =>
        apply hasPair_cons_false
        · intro y; simp [ssPair, hc]
        · exact ih.1 (hasPair_tail _ _ _ h)
    · intro h
      simp only [spNl]
      split
      · next hc =>
        have hc' : c = ' ' := beq_iff_eq.mp hc
        subst hc'
        exfalso
        simp [hasPair, ssPair] at h
      · split
        · apply hasPair_cons_false
          · intro y; rfl
          · exact ih.1 (hasPair_tail _ _ _ (hasPair_tail _ _ _ h))
        · next h1 h2 =>
          have h3 : hasPair ssPair (c :: subSpNl cs) = false := by
            apply hasPair_cons_false
            · intro y; simp [ssPair, h1]
            · exact ih.1 (hasPair_tail _ _ _ (hasPair_tail _ _ _ h))
          have hrw : List.replicate 1 ' ' ++ c :: subSpNl cs = ' ' :: c :: subSpNl cs := by
            simp
          rw [hrw]
          have hc2 : ssPair ' ' c = false := by simp [ssPair, h1]
          simp [hasPair, hc2, h3]

/-- The newline pass preserves the head character. -/
theorem subNl3_head (l : Str) : (subNl3 l).head? = l.head? := by
  cases l with
  | nil => rfl
  | cons c cs =>
    simp only [subNl3]
    split
    · next h => simp [beq_iff_eq.mp h]
    · simp

/-- Prefixing the newline-pass output of the tail keeps pair absence. -/
theorem hasPair_cons_subNl3 (p : Char → Char → Bool) (c : Char) (cs : Str)
    (h : hasPair p (c :: cs) = false) (ihcs : hasPair p (subNl3 cs) = false) :
    hasPair p (c :: subNl3 cs) = false := by
  cases hX : subNl3 cs with
  | nil => rfl
  | cons y ys =>
    have hy : p c y = false := by
      have hh : cs.head? = some y := by rw [← subNl3_head, hX]; rfl
      cases cs with
      | nil => simp at hh
      | cons d ds =>
        simp only [List.head?_cons] at hh
        have hd : d = y := Option.some.inj hh
        have h2 := h
        simp only [hasPair, Bool.or_eq_false_iff] at h2
        exact hd ▸ h2.1
    have hrest : hasPair p (y :: ys) = false := by rw [← hX]; exact ihcs
    simp [hasPair, hy, hrest]

/-- The newline passes preserve absence of any pair that cannot open on a
newline. -/
theorem subNl3_pres_pair (p : Char → Char → Bool) (hp : ∀ d, p '\n' d = false) (l : Str) :
    (hasPair p l = false → hasPair p (subNl3 l) = false) ∧
      (hasPair p l = false → hasPair p (nl2 l) = false) ∧
      (hasPair p l = false → hasPair p (nlSkip l) = false) := by
  induction l with
  | nil => exact ⟨fun _ => rfl, fun _ => rfl, fun _ => rfl⟩
  | cons c cs ih =>
    refine ⟨?_, ?_, ?_⟩
    · intro h
      simp only [subNl3]
      split
      · exact hasPair_cons_false p '\n' _ hp (ih.2.1 (hasPair_tail _ _ _ h))
      · exact hasPair_cons_subNl3 p c cs h (ih.1 (hasPair_tail _ _ _ h))
    · intro h
      simp only [nl2]
      split
      · exact hasPair_cons_false p '\n' _ hp (ih.2.2 (hasPair_tail _ _ _ h))
      · exact hasPair_cons_subNl3 p c cs h (ih.1 (hasPair_tail _ _ _ h))
    · intro h
      simp only [nlSkip]
      split
      · exact ih.2.2 (hasPair_tail _ _ _ h)
      · exact hasPair_cons_subNl3 p c cs h (ih.1 (hasPair_tail _ _ _ h))

/-- The newline pass leaves no triple newline; the inner states never
resume on the forbidden newlines. -/
theorem subNl3_no_nl3 (l : Str) :
    hasTriple nl3Triple (subNl3 l) = false ∧
      (hasTriple nl3Triple (nl2 l) = false ∧
        ¬((nl2 l).head? = some '\n' ∧ (nl2 l).tail.head? = some '\n')) ∧
      (hasTriple nl3Triple (nlSkip l) = false ∧ (nlSkip l).head? ≠ some '\n') := by
  induction l with
  | nil => exact ⟨rfl, ⟨rfl, by simp [nl2]⟩, rfl, by simp [nlSkip]⟩
  | cons c cs ih =>
    refine ⟨?_, ⟨?_, ?_⟩, ?_, ?_⟩
    · simp only [subNl3]
      split
      · cases hX : nl2 cs with
        | nil => rfl
        | cons y ys =>
          cases hY : ys with
          | nil => rfl
          | cons z zs =>
            have h1 : ¬(y = '\n' ∧ z = '\n') := by
              intro hyz
              apply ih.2.1.2
              rw [hX, hY]
              simp [hyz.1, hyz.2]
            have hrest : hasTriple nl3Triple (y :: z :: zs) = false := by
              rw [← hY, ← hX]
              exact ih.2.1.1
            simp only [hasTriple, Bool.or_eq_false_iff]
            refine ⟨?_, hrest⟩
            simp only [nl3Triple]
            by_cases hy : y = '\n'
            · by_cases hz : z = '\n'
              · exact absurd ⟨hy, hz⟩ h1
              · simp [hz]
            · simp [hy]
      · next h =>
        apply hasTriple_cons_false
        · intro y z; simp [nl3Triple, h]
        · exact ih.1
    · simp only [nl2]
      split
      · cases hX : nlSkip cs with
        | nil => rfl
        | cons y ys =>
          cases hY : ys with
          | nil => rfl
          | cons z zs =>
            have hy : y ≠ '\n' := by
              intro he
              apply ih.2.2.2
              rw [hX, he]
              rfl
            have hrest : hasTriple nl3Triple (y :: z :: zs) = false := by
              rw [← hY, ← hX]
              exact ih.2.2.1
            simp only [hasTriple, Bool.or_eq_false_iff]
            refine ⟨?_, hrest⟩
            simp [nl3Triple, hy]
      · next h =>
        apply hasTriple_cons_false
        · intro y z; simp [nl3Triple, h]
        · exact ih.1
    · simp only [nl2]
      split
      · intro hpair
        exact ih.2.2.2 hpair.2
      · next h =>
        intro hpair
        simp only [List.head?_cons] at hpair
        exact h (by rw [Option.some.inj hpair.1]; rfl)
    · simp only [nlSkip]
      split
      · exact ih.2.2.1
      · next h =>
        apply hasTriple_cons_false
        · intro y z; simp [nl3Triple, h]
        · exact ih.1
    · simp only [nlSkip]
      split
      · exact ih.2.2.2
      · next h =>
        simp only [List.head?_cons]
        intro he
        exact h (by rw [Option.some.inj he]; rfl)

/-- The space collapse is the identity on double-space-free text. -/
theorem subSp2_id (l : Str) :
    (hasPair ssPair l = false → subSp2 l = l) ∧
      (hasPair ssPair (' ' :: l) = false → subSp2Skip l = l) := by
  induction l with
  | nil => exact ⟨fun _ => rfl, fun _ => rfl⟩
  | cons c cs ih =>
    refine ⟨?_, ?_⟩
    · intro h
      simp only [subSp2]
      split
      · next hc =>
        have hc' : c = ' ' := beq_iff_eq.mp hc
        subst hc'
        rw [ih.2 h]
      · exact congrArg _ (ih.1 (hasPair_tail _ _ _ h))
    · intro h
      simp only [subSp2Skip]
      split
      · next hc =>
        have hc' : c = ' ' := beq_iff_eq.mp hc
        subst hc'
        exfalso
        simp [hasPair, ssPair] at h
      · exact congrArg _ (ih.1 (hasPair_tail _ _ _ (hasPair_tail _ _ _ h)))

/-- The space-newline pass is the identity when no space precedes a newline. -/
theorem subSpNl_id (l : Str) :
    (hasPair spNlPair l = false → subSpNl l = l) ∧
      (∀ k, hasPair spNlPair (' ' :: l) = false →
        spNl l k = List.replicate k ' ' ++ l) := by
  induction l with
  | nil =>
    refine ⟨fun _ => rfl, fun k _ => ?_⟩
    simp [spNl]
  | cons c cs ih =>
    refine ⟨?_, ?_⟩
    · intro h
      simp only [subSpNl]
      split
      · next hc =>
        have hc' : c = ' ' := beq_iff_eq.mp hc
        subst hc'
        rw [ih.2 1 h]
        simp
      · exact congrArg _ (ih.1 (hasPair_tail _ _ _ h))
    · intro k h
      simp only [spNl]
      split
      · next hc =>
        have hc' : c = ' ' := beq_iff_eq.mp hc
        subst hc'
        rw [ih.2 (k + 1) (hasPair_tail _ _ _ h)]
        rw [List.replicate_succ', List.append_assoc]
        simp
      · split
        · next hc hn =>
          have hc' : c = '\n' := beq_iff_eq.mp hn
          subst hc'
          exfalso
          simp [hasPair, spNlPair] at h
        · rw [ih.1 (hasPair_tail _ _ _ (hasPair_tail _ _ _ h))]

/-- The newline pass is the identity on triple-newline-free text. -/
theorem subNl3_id (l : Str) :
    (hasTriple nl3Triple l = false → subNl3 l = l) ∧
      (hasTriple nl3Triple ('\n' :: l) = false → nl2 l = l) ∧
      (hasTriple nl3Triple ('\n' :: '\n' :: l) = false → nlSkip l = l) := by
  induction l with
  | nil => exact ⟨fun _ => rfl, fun _ => rfl, fun _ => rfl⟩
  | cons c cs ih =>
    refine ⟨?_, ?_, ?_⟩
    · intro h
      simp only [subNl3]
      split
      · next hc =>
        have hc' : c = '\n' := beq_iff_eq.mp hc
        subst hc'
        rw [ih.2.1 h]
      · exact congrArg _ (ih.1 (hasTriple_tail _ _ _ h))
    · intro h
      simp only [nl2]
      split
      · next hc =>
        have hc' : c = '\n' := beq_iff_eq.mp hc
        subst hc'
        rw [ih.2.2 h]
      · exact congrArg _ (ih.1 (hasTriple_tail _ _ _ (hasTriple_tail _ _ _ h)))
    · intro h
      simp only [nlSkip]
      split
      · next hc =>
        have hc' : c = '\n' := beq_iff_eq.mp hc
        subst hc'
        exfalso
        simp [hasTriple, nl3Triple] at h
      · exact congrArg _
          (ih.1 (hasTriple_tail _ _ _ (hasTriple_tail _ _ _ (hasTriple_tail _ _ _ h))))

/-- Shape of every cleanup output: no nbsp, no double space, no space before
a newline, no triple newline. -/
theorem cleanup_shape (x : Str) :
    nbspChar ∉ cleanup x ∧ hasPair ssPair (cleanup x) = false ∧
      hasPair spNlPair (cleanup x) = false ∧
      hasTriple nl3Triple (cleanup x) = false := by
  unfold cleanup
  have hinf := pyStrip_infix
    (subNl3 (subSpNl (subSp2 (subNbsp (getTextF (rmRM (parseHTML x)))))))
  refine ⟨?_, ?_, ?_, ?_⟩
  · intro hm
    have h4 := hinf.subset hm
    rcases (mem_subNl3 nbspChar _).1 h4 with he | h3
    · exact absurd he (by decide)
    rcases (mem_subSpNl nbspChar _).1 h3 with he | he | h2
    · exact absurd he (by decide)
    · exact absurd he (by decide)
    rcases (mem_subSp2 nbspChar _).1 h2 with he | h1
    · exact absurd he (by decide)
    exact (subNbsp_no_nbsp _).1 h1
  · apply hasPair_infix _ hinf
    exact (subNl3_pres_pair ssPair (fun d => rfl) _).1
      ((subSpNl_pres_ss _).1 (subSp2_no_ss _).1)
  · apply hasPair_infix _ hinf
    exact (subNl3_pres_pair spNlPair (fun d => rfl) _).1 (subSpNl_no_spnl _).1
  · exact hasTriple_infix _ hinf (subNl3_no_nl3 _).1

/-- C8 counterexample: re-cleaning the cleaned double-escaped fragment
decodes a second layer of character references, so cleanup is not idempotent
on its own output in general. -/
theorem c8_cleanup_not_idempotent :
    cleanup (cleanup xC8) ≠ cleanup xC8 := by decide

/-- C8 amended: cleanup is idempotent on its own output whenever that output
contains no markup-significant character (no angle bracket opener and no
ampersand); re-cleaning such plain text changes nothing. -/
theorem c8_cleanup_idempotent_amended (x : Str)
    (hlt : '<' ∉ cleanup x) (hamp : '&' ∉ cleanup x) :
    cleanup (cleanup x) = cleanup x := by
  obtain ⟨hnb, hss, hsn, hn3⟩ := cleanup_shape x
  conv_lhs => rw [cleanup]
  rw [parseHTML_plain _ hlt hamp, rmRM_texts, getTextF_texts]
  rw [subNbsp_id _ hnb, (subSp2_id _).1 hss, (subSpNl_id _).1 hsn, (subNl3_id _).1 hn3]
  rw [show cleanup x =
    pyStrip (subNl3 (subSpNl (subSp2 (subNbsp (getTextF (rmRM (parseHTML x)))))))
    from rfl]
  exact pyStrip_idem _

/-- C8 amended witness at a concrete plain-text fragment. -/
theorem c8_cleanup_idempotent_amended_witness :
    ('<' ∉ cleanup "hello world".toList) ∧ ('&' ∉ cleanup "hello world".toList) ∧
      cleanup (cleanup "hello world".toList) = cleanup "hello world".toList :=
  ⟨by decide, by decide,
    c8_cleanup_idempotent_amended "hello world".toList (by decide) (by decide)⟩

/-- C5 witness at the fixture run: watermark 3 and one feed with entries
stamped 5 and 1. -/
theorem c5_watermark_advance_witness :
    cfg0.updated ≤ runNewest world0 cfg0 ∧
      entT5.updated ≤ runNewest world0 cfg0 ∧
      (runNewest world0 cfg0 = cfg0.updated ∨
        ∃ e ∈ allProcessed world0 cfg0, runNewest world0 cfg0 = e.updated) :=
  ⟨(c5_watermark_advance world0 cfg0).1,
    (c5_watermark_advance world0 cfg0).2.1 entT5
      (by simp [allProcessed, getFeedEntries, world0, cfg0, feed0, List.mem_mergeSort]; decide),
    (c5_watermark_advance world0 cfg0).2.2⟩

end Feediverse
